import Mathlib

/-!
Verification of the gpt-engineer CLI core (`gpt_engineer/applications/cli/main.py`
and the spec-described hunk/strategy machinery).

File Sets are modelled as association lists from path to content; the hunk
machinery (diff serialization, parsing, merge) works at line granularity, so a
file content for that part is a `List String` of its lines.  Functions present
in `src/` (`main`, `compare`, `prompt_yesno`, `get_preprompts_path`) are
translated from the source; functions of the repository that are not under
`src/` (the improve/diff pipeline, the custom steps, `DiskMemory.archive_logs`)
are modelled from the spec and say so in their doc comments.
-/

namespace GptEng

/-! ## Generic helpers -/

/-- Association-list lookup by string key (first match), modelling Python dict lookup. -/
def alookup {α : Type} : List (String × α) → String → Option α
  | [], _ => none
  | e :: l, k => if e.1 = k then some e.2 else alookup l k

/-- The keys of an association list, in order. -/
def keysOf {α : Type} (l : List (String × α)) : List String := l.map Prod.fst

/-- String concatenation at the character-list level (kernel-reducible). -/
def scat (a b : String) : String := ⟨a.data ++ b.data⟩

/-- If `pre` is a prefix of `s` (as character lists), return the remainder. -/
def dropPreChars : List Char → List Char → Option (List Char)
  | [], rest => some rest
  | _ :: _, [] => none
  | c :: cs, d :: ds => if c = d then dropPreChars cs ds else none

/-- If `pre` is a prefix of `s`, return the rest of `s`, else `none`. -/
def dropPre (pre s : String) : Option String :=
  (dropPreChars pre.data s.data).map (fun cs => ⟨cs⟩)

/-- `Option`-valued map over a list, failing if any element fails. -/
def mapOpt {α β : Type} (f : α → Option β) : List α → Option (List β)
  | [] => some []
  | a :: l =>
    match f a, mapOpt f l with
    | some b, some bs => some (b :: bs)
    | _, _ => none

/-- ASCII lower-casing of one character (model of Python `str.lower` on ASCII). -/
def lowerChar (c : Char) : Char :=
  if 'A' ≤ c ∧ c ≤ 'Z' then Char.ofNat (c.toNat + 32) else c

/-- Model of Python `str.lower` (ASCII range). -/
def pyLower (s : String) : String := ⟨s.data.map lowerChar⟩

/-- Whitespace test used by the model of Python `str.strip`. -/
def isWs (c : Char) : Bool := c = ' ' ∨ c = '\t' ∨ c = '\n' ∨ c = '\r'

/-- Model of Python `str.strip`: drop whitespace from both ends. -/
def pyStrip (s : String) : String :=
  ⟨((s.data.dropWhile isWs).reverse.dropWhile isWs).reverse⟩

/-- Model of Python `str.splitlines` (splitting on newline characters; an empty
string yields no lines and a trailing newline yields no extra empty line). -/
def splitLinesAux : List Char → List Char → List String
  | [], [] => []
  | [], acc => [⟨acc.reverse⟩]
  | '\n' :: rest, acc => ⟨acc.reverse⟩ :: splitLinesAux rest []
  | c :: rest, acc => splitLinesAux rest (c :: acc)

/-- Model of Python `str.splitlines`. -/
def pySplitLines (s : String) : List String := splitLinesAux s.data []

/-! ## Decimal digits (for unified-diff hunk headers) -/

/-- The decimal digit character for a digit value below ten. -/
def digitChar : Nat → Char
  | 0 => '0' | 1 => '1' | 2 => '2' | 3 => '3' | 4 => '4'
  | 5 => '5' | 6 => '6' | 7 => '7' | 8 => '8' | 9 => '9'
  | _ => '!'

/-- The digit value of a decimal digit character. -/
def charVal (c : Char) : Nat :=
  if c = '0' then 0 else if c = '1' then 1 else if c = '2' then 2 else if c = '3' then 3
  else if c = '4' then 4 else if c = '5' then 5 else if c = '6' then 6 else if c = '7' then 7
  else if c = '8' then 8 else 9

/-- Decimal digit test. -/
def isDigitC (c : Char) : Bool := '0' ≤ c && c ≤ '9'

/-- Decimal digit characters of `n`, most significant first; the fuel bounds the
number of divisions so the recursion is structural. -/
def natCharsCore : Nat → Nat → List Char
  | 0, _ => []
  | fuel + 1, n => if n = 0 then [] else natCharsCore fuel (n / 10) ++ [digitChar (n % 10)]

/-- Decimal representation of a natural number as characters. -/
def natChars (n : Nat) : List Char :=
  if n = 0 then ['0'] else natCharsCore n n

/-- Value of a decimal digit string read left to right. -/
def charsVal (cs : List Char) : Nat := cs.foldl (fun a c => 10 * a + charVal c) 0

/-! ## Edit hunks: serialization and parsing

Modelled from the spec: the diff block syntax of §6 — `--- <path>` / `+++ <path>`
header lines, an `@@ ... @@` hunk header, then `-`/`+` prefixed lines.  The
repository's parser (`chat_to_files`) is not under `src/`; per the spec (§7) a
block that does not match the grammar is skipped. -/

/-- One parsed edit hunk: a target path, the removed lines and the added lines. -/
structure Hunk where
  path : String
  minus : List String
  plus : List String
deriving DecidableEq

/-- The `@@ -1,n +1,m @@` hunk header line. -/
def mkHeader (n m : Nat) : String :=
  ⟨['@', '@', ' ', '-', '1', ','] ++
    (natChars n ++ ' ' :: '+' :: '1' :: ',' :: (natChars m ++ [' ', '@', '@']))⟩

/-- Parse an `@@ -1,n +1,m @@` hunk header, returning the removal and addition counts. -/
def parseHeader (s : String) : Option (Nat × Nat) :=
  (dropPreChars ['@', '@', ' ', '-', '1', ','] s.data).bind (fun rest =>
    let d1 := rest.takeWhile isDigitC
    let rest1 := rest.dropWhile isDigitC
    if d1 = [] then none
    else
      (dropPreChars [' ', '+', '1', ','] rest1).bind (fun rest2 =>
        let d2 := rest2.takeWhile isDigitC
        let rest3 := rest2.dropWhile isDigitC
        if d2 = [] then none
        else if rest3 = [' ', '@', '@'] then some (charsVal d1, charsVal d2) else none))

/-- Serialize a hunk into diff-block lines: file headers, hunk header, then the
`-` and `+` prefixed lines. -/
def serializeHunk (h : Hunk) : List String :=
  scat "--- " h.path :: scat "+++ " h.path :: mkHeader h.minus.length h.plus.length ::
    (h.minus.map (scat "-") ++ h.plus.map (scat "+"))

/-- Modelled from the spec: the hunk parser.  Scans the response lines; a
`--- path` / `+++ path` pair followed by a well-formed hunk header and the
announced number of `-` and `+` lines yields a hunk; anything that does not
match the grammar is skipped (spec §7: parse failures skip the block).  The
fuel argument is the number of remaining lines, so the recursion is structural. -/
def parseHunksGo : Nat → List String → List Hunk
  | _, [] => []
  | 0, _ :: _ => []
  | fuel + 1, l :: rest =>
    match dropPre "--- " l with
    | none => parseHunksGo fuel rest
    | some path =>
      match rest with
      | [] => []
      | l2 :: rest2 =>
        if (dropPre "+++ " l2).isSome then
          match rest2 with
          | [] => []
          | l3 :: rest3 =>
            match parseHeader l3 with
            | none => parseHunksGo fuel rest
            | some nm =>
              match mapOpt (dropPre "-") (rest3.take nm.1),
                    mapOpt (dropPre "+") ((rest3.drop nm.1).take nm.2) with
              | some minus, some plus =>
                if minus.length = nm.1 ∧ plus.length = nm.2 then
                  ⟨path, minus, plus⟩ :: parseHunksGo fuel ((rest3.drop nm.1).drop nm.2)
                else parseHunksGo fuel rest
              | _, _ => parseHunksGo fuel rest
        else parseHunksGo fuel rest

/-- Modelled from the spec: parse a model response (as lines) into edit hunks. -/
def parse_hunks (ls : List String) : List Hunk := parseHunksGo ls.length ls

/-! ## File Sets (line granularity) and merge -/

/-- File content at line granularity. -/
abbrev Content := List String

/-- A File Set at line granularity: association list path → lines. -/
abbrev FilesDictL := List (String × Content)

/-- Python dict equality for File Sets: same value at every key. -/
def fdEq (X Y : FilesDictL) : Prop := ∀ p, alookup X p = alookup Y p

/-- Replace the content stored under path `p` (all entries with that key). -/
def setContent (fs : FilesDictL) (p : String) (c : Content) : FilesDictL :=
  fs.map (fun e => if e.1 = p then (p, c) else e)

/-- Find the least index `≥ i` at which `pat` occurs as a block in the suffix. -/
def findBlockAux (pat : List String) : List String → Nat → Option Nat
  | [], i => if pat.isPrefixOf [] then some i else none
  | c :: t, i => if pat.isPrefixOf (c :: t) then some i else findBlockAux pat t (i + 1)

/-- Merge state: the evolving File Set plus the forward-only search cursor per
path (spec §4.1: the search for the next hunk's anchor starts from the last
successfully applied hunk's end position). -/
structure MergeState where
  files : FilesDictL
  cursors : List (String × Nat)

/-- Modelled from the spec (§4.1 `merge`; the repository's hunk applier is not
under `src/`): locate the hunk's removal block in the target file starting at
the per-file cursor (forward-only, monotonic); replace it with the added lines
and advance the cursor.  A pure-addition hunk on a missing file creates the
file; a pure-addition hunk on an existing file inserts at the cursor.  A hunk
whose anchor cannot be located is reported and skipped (best-effort partial
application, `HunkApplicationError`). -/
def applyHunk (st : MergeState) (h : Hunk) : MergeState :=
  let start := (alookup st.cursors h.path).getD 0
  match alookup st.files h.path with
  | some c =>
    if h.minus.isEmpty then
      ⟨setContent st.files h.path (c.take start ++ h.plus ++ c.drop start),
       (h.path, start + h.plus.length) :: st.cursors⟩
    else
      match findBlockAux h.minus (c.drop start) start with
      | some i =>
        ⟨setContent st.files h.path (c.take i ++ h.plus ++ c.drop (i + h.minus.length)),
         (h.path, i + h.plus.length) :: st.cursors⟩
      | none => st
  | none =>
    if h.minus.isEmpty then
      ⟨st.files ++ [(h.path, h.plus)], (h.path, h.plus.length) :: st.cursors⟩
    else st

/-- The effect of `applyHunk` on the content stored under the hunk's own path,
as a function of that content and the cursor (used to characterise `merge`). -/
def applyContent (oc : Option Content) (start : Nat) (h : Hunk) : Option Content :=
  match oc with
  | some c =>
    if h.minus.isEmpty then some (c.take start ++ h.plus ++ c.drop start)
    else
      match findBlockAux h.minus (c.drop start) start with
      | some i => some (c.take i ++ h.plus ++ c.drop (i + h.minus.length))
      | none => some c
  | none => if h.minus.isEmpty then some h.plus else none

/-- Modelled from the spec (§4.1): apply a sequence of edit hunks to a base
File Set, returning a new File Set. -/
def merge (base : FilesDictL) (hs : List Hunk) : FilesDictL :=
  (hs.foldl applyHunk ⟨base, []⟩).files

/-! ## diff -/

/-- Modelled from the spec (§4.1 `diff`): the hunk for one path of the union —
no hunk when the contents agree, a pure-removal hunk for a path only in `A`,
a pure-addition hunk for a path only in `B`, a whole-content replacement hunk
otherwise. -/
def mkHunk (A B : FilesDictL) (p : String) : Option Hunk :=
  match alookup A p, alookup B p with
  | some o, some n => if o = n then none else some ⟨p, o, n⟩
  | some o, none => some ⟨p, o, []⟩
  | none, some n => some ⟨p, [], n⟩
  | none, none => none

/-- The union of the two key sets (keys of `A`, then the new keys of `B`). -/
def unionKeysL (A B : FilesDictL) : List String :=
  keysOf A ++ (keysOf B).filter (fun p => decide (p ∉ keysOf A))

/-- Modelled from the spec (§4.1 `diff`): one hunk per path of the union whose
contents differ. -/
def diffFiles (A B : FilesDictL) : List Hunk :=
  (unionKeysL A B).filterMap (mkHunk A B)

/-- Modelled from the spec: the diff of two File Sets serialized into the hunk
grammar the parser consumes (§6 diff block syntax), as a list of lines. -/
def diffText (A B : FilesDictL) : List String :=
  (diffFiles A B).flatMap serializeHunk

/-- The first hunk of the list targeting path `q`, if any. -/
def hunkFor (hs : List Hunk) (q : String) : Option Hunk :=
  hs.find? (fun k => k.path == q)

/-- Modelled from the spec (§4.3 `improve`): parse the model response into edit
hunks and apply them via `merge`; if parsing yields zero hunks, return
`base_files` unchanged (no-op contract).  The repository's `improve_fn` is not
under `src/`. -/
def improve (base : FilesDictL) (responseLines : List String) : FilesDictL :=
  let hunks := parse_hunks responseLines
  if hunks.isEmpty then base else merge base hunks

/-! ## String order and `compare` (from `main.py`) -/

/-- Lexicographic character-list comparison (Boolean), modelling Python string
ordering by code point. -/
def leChars : List Char → List Char → Bool
  | [], _ => true
  | _ :: _, [] => false
  | a :: as, b :: bs => if a < b then true else if b < a then false else leChars as bs

/-- Lexicographic string order used to model Python `sorted` on paths. -/
def strLe (a b : String) : Prop := leChars a.data b.data = true

instance : DecidableRel strLe := fun _ _ => inferInstanceAs (Decidable (_ = true))

/-- The sorted union of the key sets of two association lists, modelling
`sorted(set(f1) | set(f2))` from `compare`. -/
def sortedUnionKeys {α : Type} (f1 f2 : List (String × α)) : List String :=
  List.insertionSort strLe ((keysOf f1 ++ keysOf f2).dedup)

/-- Length of the common prefix of two line lists. -/
def commonPrefixLen : List String → List String → Nat
  | a :: as, b :: bs => if a = b then commonPrefixLen as bs + 1 else 0
  | _, _ => 0

/-- Modelled from the Python standard library `difflib.unified_diff` as called
by `compare` (external collaborator): no output for equal inputs; otherwise the
two file header lines, a hunk header, and the differing middle (common prefix
and suffix stripped) as `-` lines of the first input followed by `+` lines of
the second.  The exact hunk grouping and context lines of difflib are not
reproduced; the claims proved below depend only on the cases where one input is
empty. -/
def unified_diff (xs ys : List String) : List String :=
  if xs = ys then []
  else
    let k := commonPrefixLen xs ys
    let xs1 := xs.drop k
    let ys1 := ys.drop k
    let j := commonPrefixLen xs1.reverse ys1.reverse
    let midx := xs1.take (xs1.length - j)
    let midy := ys1.take (ys1.length - j)
    "--- " :: "+++ " :: mkHeader midx.length midy.length ::
      (midx.map (scat "-") ++ midy.map (scat "+"))

/-- A File Set as the source's `FilesDict` stores it: path → text content. -/
abbrev FilesDictS := List (String × String)

/-- From `main.py` `compare`: for every path of `sorted(set(f1) | set(f2))`,
the unified diff of the two contents, a missing path counting as empty content
(`f1.get(file, "")`).  The ANSI colouring and printing are presentation and are
omitted; the diff lines themselves are returned per path. -/
def compare (f1 f2 : FilesDictS) : List (String × List String) :=
  (sortedUnionKeys f1 f2).map (fun p =>
    (p, unified_diff (pySplitLines ((alookup f1 p).getD ""))
                     (pySplitLines ((alookup f2 p).getD ""))))

/-! ## `prompt_yesno` and the tail of `main` (from `main.py`) -/

/-- A Python value as it occurs in `prompt_yesno`: a string or a bool.  Python
`==` between a bool and a string is `False`. -/
inductive PyVal
  | str (s : String)
  | bool (b : Bool)
deriving DecidableEq

/-- Python `==` restricted to the values occurring in `prompt_yesno`. -/
def pyEq : PyVal → PyVal → Bool
  | .str a, .str b => a = b
  | .bool a, .bool b => a = b
  | _, _ => false

/-- Python `in` on a list of values. -/
def pyMem (v : PyVal) (l : List PyVal) : Bool := l.any (pyEq v)

/-- Python truthiness of the values occurring in `prompt_yesno`. -/
def pyTruthy : PyVal → Bool
  | .str s => decide (s ≠ "")
  | .bool b => b

/-- From `main.py` `prompt_yesno`, translated faithfully including the walrus
assignment: `answer := input().strip().lower() not in ["y","yes","n","no"]`
binds `answer` to the *boolean* result of `not in` (the walrus has lower
precedence than `not in`), the loop repeats while that boolean is truthy, and
the final `return answer in ["y", "yes"]` compares that boolean against the
two strings.  One list element is consumed per `input()` call; an exhausted
input list is `none` (Python would block or raise). -/
def prompt_yesno : List String → Option Bool
  | [] => none
  | s :: rest =>
    let answer : PyVal :=
      .bool (!pyMem (.str (pyLower (pyStrip s))) [.str "y", .str "yes", .str "n", .str "no"])
    if pyTruthy answer then prompt_yesno rest
    else some (pyMem answer [.str "y", .str "yes"])

/-- The observable steps of `main` that the claims are about, in source order. -/
inductive Effect
  | echoError
  | loadEnv
  | constructAI
  | loadPrompt
  | archiveLogs
  | improveStep
  | genStep
  | printNoChanges
  | printDiff
  | askConfirmation
  | collectReview
  | stageGit
  | push
deriving DecidableEq

/-- The generation strategy `main` configures (`clarified_gen` / `lite_gen` /
`gen_code` from the imports of `main.py`). -/
inductive CodeGenFn
  | clarified_gen
  | lite_gen
  | gen_code
deriving DecidableEq

/-- The execution strategy `main` configures (`self_heal` / `execute_entrypoint`). -/
inductive ExecutionFn
  | self_heal
  | execute_entrypoint
deriving DecidableEq

/-- From `main.py`: `code_gen_fn = clarified_gen if clarify_mode else
(lite_gen if lite_mode else gen_code)` (clarify takes precedence). -/
def configure_code_gen (clarify_mode lite_mode : Bool) : CodeGenFn :=
  if clarify_mode then .clarified_gen else if lite_mode then .lite_gen else .gen_code

/-- From `main.py`: `execution_fn = self_heal if self_heal_mode else execute_entrypoint`. -/
def configure_execution (self_heal_mode : Bool) : ExecutionFn :=
  if self_heal_mode then .self_heal else .execute_entrypoint

/-- The outcome of a `main` run: the effect trace, the exit code (set only by
`typer.Exit`), the strategies configured, and the File Set finally pushed to
the file store (`files.push(files_dict)`), `none` if the run stopped early. -/
structure MainOutcome where
  effects : List Effect
  exitCode : Option Nat
  genFn : Option CodeGenFn
  execFn : Option ExecutionFn
  pushed : Option FilesDictS
deriving DecidableEq

/-- From `main.py` `main` (lines 282–366), with the external collaborators as
oracles: `files_dict_before` is the `FileSelector` result, `improve_result`
the `handle_improve_mode` result, `gen_result` the `agent.init` result, and
`inputs` the terminal answers consumed by `prompt_yesno`.  Control flow follows
the source: the improve/clarify/lite validation exits with code 1 before the
environment is loaded or the AI is constructed; in improve mode an empty or
unchanged result prints the report-the-log message and is pushed as-is, while a
changed result shows the diff, asks for confirmation and reverts to
`files_dict_before` when `prompt_yesno()` is falsy. -/
def main (improve_mode clarify_mode lite_mode self_heal_mode : Bool)
    (files_dict_before improve_result gen_result : FilesDictS)
    (inputs : List String) : MainOutcome :=
  if improve_mode && (clarify_mode || lite_mode) then
    ⟨[.echoError], some 1, none, none, none⟩
  else
    let genFn := configure_code_gen clarify_mode lite_mode
    let execFn := configure_execution self_heal_mode
    let pre : List Effect := [.loadEnv, .constructAI, .loadPrompt, .archiveLogs]
    if improve_mode then
      if improve_result.isEmpty ∨ files_dict_before = improve_result then
        ⟨pre ++ [.improveStep, .printNoChanges, .stageGit, .push], none,
         some genFn, some execFn, some improve_result⟩
      else
        match prompt_yesno inputs with
        | none =>
          ⟨pre ++ [.improveStep, .printDiff, .askConfirmation], none,
           some genFn, some execFn, none⟩
        | some ans =>
          ⟨pre ++ [.improveStep, .printDiff, .askConfirmation, .stageGit, .push], none,
           some genFn, some execFn,
           some (if ans then improve_result else files_dict_before)⟩
    else
      ⟨pre ++ [.genStep, .collectReview, .stageGit, .push], none,
       some genFn, some execFn, some gen_result⟩

/-! ## `get_preprompts_path` (from `main.py`) -/

/-- Which preprompts directory `get_preprompts_path` returns. -/
inductive PrepromptsPath
  | defaultPath
  | customPath
deriving DecidableEq

/-- From `main.py` `get_preprompts_path`: copy each default preprompt file whose
name is not yet present in the project's preprompts directory. -/
def copy_missing (defaults dir : List (String × String)) : List (String × String) :=
  defaults.foldl (fun d file => if (alookup d file.1).isSome then d else d ++ [file]) dir

/-- From `main.py` `get_preprompts_path`: with `use_custom_preprompts = False`
return the default path and touch nothing; otherwise create the project's
`preprompts` directory if missing (`none` models a missing directory) and copy
in exactly the default files whose names are absent. -/
def get_preprompts_path (use_custom : Bool) (defaults : List (String × String))
    (customDir : Option (List (String × String))) :
    PrepromptsPath × Option (List (String × String)) :=
  if ¬ use_custom then (.defaultPath, customDir)
  else (.customPath, some (copy_missing defaults (customDir.getD [])))

/-! ## Spec-modelled collaborators: self-heal, clarify, memory -/

/-- An Execution Result (spec §3): captured output, exit code and the File Set
snapshot after the run. -/
structure ExecResult (α : Type) where
  files : α
  stdout : String
  stderr : String
  exitCode : Nat

/-- Modelled from the spec (§4.4 self-heal loop; `tools/custom_steps.py
self_heal` is not under `src/`): run the entrypoint; exit code zero returns the
current File Set; a nonzero exit with retries left obtains a fix from the
model (`fix` oracle, the §4.3 improve path) and re-runs; exhausted retries
return the last File Set as-is.  Returns the final File Set and the number of
retries performed. -/
def selfHealGo {α : Type} (execute : α → ExecResult α) (fix : α → ExecResult α → α) :
    Nat → α → α × Nat
  | 0, files => (files, 0)
  | fuel + 1, files =>
    let r := execute files
    if r.exitCode = 0 then (files, 0)
    else
      let next := selfHealGo execute fix fuel (fix files r)
      (next.1, next.2 + 1)

/-- Modelled from the spec (§4.4): the self-heal execution strategy with its
retry bound. -/
def self_heal {α : Type} (execute : α → ExecResult α) (fix : α → ExecResult α → α)
    (maxRetries : Nat) (files : α) : α × Nat :=
  selfHealGo execute fix maxRetries files

/-- The fixed phrase of the clarify sentinel (spec §4.2). -/
def no_clarify_sentinel : String := "nothing to clarify"

/-- Modelled from the spec (§4.2 clarify generation; `tools/custom_steps.py
clarified_gen` is not under `src/`): a bounded loop that asks the model for a
clarification each round; a response matching the sentinel case-insensitively
exits the loop; otherwise the human's answer is appended to the conversation,
an empty answer terminating the loop early.  Returns the number of
clarification rounds and the accumulated conversation. -/
def clarifyLoop : Nat → List String → List String → List String → Nat → Nat × List String
  | 0, _, _, convo, rounds => (rounds, convo)
  | _ + 1, [], _, convo, rounds => (rounds, convo)
  | cap + 1, r :: rs, answers, convo, rounds =>
    let convo1 := convo ++ [r]
    if pyLower r = no_clarify_sentinel then (rounds + 1, convo1)
    else
      match answers with
      | [] => (rounds + 1, convo1)
      | a :: as =>
        if pyStrip a = "" then (rounds + 1, convo1 ++ [a])
        else clarifyLoop cap rs as (convo1 ++ [a]) (rounds + 1)

/-- The hard cap on clarification rounds (spec §4.2: "hard cap, e.g. 10 rounds"). -/
def CLARIFY_ROUND_CAP : Nat := 10

/-- Modelled from the spec (§4.2): clarify generation, driven by scripted model
responses and human answers; generation then proceeds with the accumulated
conversation as context. -/
def clarified_gen (prompt : String) (responses answers : List String) : Nat × List String :=
  clarifyLoop CLARIFY_ROUND_CAP responses answers [prompt] 0

/-- The Memory store's log state: the active log entries and the archived ones. -/
structure MemoryState where
  logs : List (String × String)
  archive : List (String × String)
deriving DecidableEq

/-- Modelled from the spec (§6 Memory contract; `DiskMemory.archive_logs` is
not under `src/`): move the prior log entries aside into the archive. -/
def archive_logs (m : MemoryState) : MemoryState := ⟨[], m.archive ++ m.logs⟩

/-- Every log entry the store holds, active or archived. -/
def allEntries (m : MemoryState) : List (String × String) := m.logs ++ m.archive

/-! ## Helper lemmas -/

theorem alookup_append {α : Type} (xs ys : List (String × α)) (n : String) :
    alookup (xs ++ ys) n
      = match alookup xs n with
        | some c => some c
        | none => alookup ys n := by
  induction xs with
  | nil => simp [alookup]
  | cons e l ih =>
    by_cases he : e.1 = n
    · simp [alookup, he]
    · simp only [List.cons_append, alookup, if_neg he]
      exact ih

theorem copy_missing_cons (f : String × String) (fs dir : List (String × String)) :
    copy_missing (f :: fs) dir
      = copy_missing fs (if (alookup dir f.1).isSome then dir else dir ++ [f]) := rfl

theorem alookup_copy_missing (defaults : List (String × String)) :
    ∀ (dir : List (String × String)) (n : String),
      alookup (copy_missing defaults dir) n
        = match alookup dir n with
          | some c => some c
          | none => alookup defaults n := by
  induction defaults with
  | nil =>
    intro dir n
    cases h : alookup dir n <;> simp [copy_missing, alookup, h]
  | cons f fs ih =>
    intro dir n
    rw [copy_missing_cons f fs dir]
    by_cases hf : (alookup dir f.1).isSome
    · rw [if_pos hf, ih]
      cases h : alookup dir n with
      | some c => rfl
      | none =>
        by_cases hn : f.1 = n
        · exact absurd (hn ▸ h) (by simp [Option.isSome_iff_ne_none] at hf; exact hf)
        · simp [alookup, hn]
    · rw [if_neg hf, ih, alookup_append]
      cases h : alookup dir n with
      | some c => rfl
      | none =>
        by_cases hn : f.1 = n
        · simp [alookup, hn]
        · simp [alookup, hn]

theorem leChars_total (x : List Char) : ∀ y, leChars x y = true ∨ leChars y x = true := by
  induction x with
  | nil => intro y; left; rfl
  | cons a as ih =>
    intro y
    cases y with
    | nil => right; rfl
    | cons b bs =>
      rcases lt_trichotomy a b with h | h | h
      · left; simp [leChars, h]
      · subst h
        rcases ih bs with hh | hh
        · left; simp [leChars, lt_irrefl, hh]
        · right; simp [leChars, lt_irrefl, hh]
      · right; simp [leChars, h]

theorem leChars_trans (x : List Char) :
    ∀ y z, leChars x y = true → leChars y z = true → leChars x z = true := by
  induction x with
  | nil => intro y z _ _; rfl
  | cons a as ih =>
    intro y z hxy hyz
    cases y with
    | nil => simp [leChars] at hxy
    | cons b bs =>
      cases z with
      | nil => simp [leChars] at hyz
      | cons c cs =>
        simp only [leChars] at hxy hyz ⊢
        by_cases hab : a < b
        · by_cases hbc : b < c
          · simp [lt_trans hab hbc]
          · by_cases hcb : c < b
            · simp [hbc, hcb] at hyz
            · have hbceq : b = c := le_antisymm (not_lt.mp hcb) (not_lt.mp hbc)
              subst hbceq
              simp [hab]
        · by_cases hba : b < a
          · simp [hab, hba] at hxy
          · have habeq : a = b := le_antisymm (not_lt.mp hba) (not_lt.mp hab)
            subst habeq
            rw [if_neg (lt_irrefl a), if_neg (lt_irrefl a)] at hxy
            by_cases hac : a < c
            · simp [hac]
            · by_cases hca : c < a
              · simp [hac, hca] at hyz
              · have haceq : a = c := le_antisymm (not_lt.mp hca) (not_lt.mp hac)
                subst haceq
                rw [if_neg (lt_irrefl a), if_neg (lt_irrefl a)] at hyz ⊢
                exact ih bs cs hxy hyz

instance : IsTotal String strLe := ⟨fun a b => leChars_total a.data b.data⟩

instance : IsTrans String strLe := ⟨fun a b c => leChars_trans a.data b.data c.data⟩

theorem alookup_isSome_iff {α : Type} (f : List (String × α)) (p : String) :
    (alookup f p).isSome = true ↔ p ∈ keysOf f := by
  induction f with
  | nil => simp [alookup, keysOf]
  | cons e l ih =>
    simp only [alookup, keysOf, List.map_cons, List.mem_cons]
    by_cases he : e.1 = p
    · simp [he]
    · rw [if_neg he, ih]
      simp only [keysOf]
      constructor
      · exact fun h => Or.inr h
      · rintro (h | h)
        · exact absurd h.symm he
        · exact h

theorem alookup_eq_none_iff {α : Type} (f : List (String × α)) (p : String) :
    alookup f p = none ↔ p ∉ keysOf f := by
  rw [← alookup_isSome_iff]
  cases alookup f p <;> simp

theorem mem_sortedUnionKeys {α : Type} (f1 f2 : List (String × α)) (p : String) :
    p ∈ sortedUnionKeys f1 f2 ↔ p ∈ keysOf f1 ∨ p ∈ keysOf f2 := by
  unfold sortedUnionKeys
  rw [List.Perm.mem_iff (List.perm_insertionSort strLe _), List.mem_dedup, List.mem_append]

theorem commonPrefixLen_nil_right (xs : List String) : commonPrefixLen xs [] = 0 := by
  cases xs <;> rfl

theorem commonPrefixLen_nil_left (ys : List String) : commonPrefixLen [] ys = 0 := by
  cases ys <;> rfl

theorem unified_diff_deletion (xs : List String) (hx : xs ≠ []) :
    unified_diff xs [] = "--- " :: "+++ " :: mkHeader xs.length 0 :: xs.map (scat "-") := by
  rw [unified_diff, if_neg hx]
  simp [commonPrefixLen_nil_right, commonPrefixLen_nil_left]

theorem unified_diff_addition (ys : List String) (hy : ys ≠ []) :
    unified_diff [] ys = "--- " :: "+++ " :: mkHeader 0 ys.length :: ys.map (scat "+") := by
  rw [unified_diff, if_neg (fun h => hy h.symm)]
  simp [commonPrefixLen_nil_right, commonPrefixLen_nil_left]

theorem unified_diff_del_lines (xs : List String) :
    ∀ l ∈ (unified_diff xs []).drop 3, l.data.head? = some '-' := by
  intro l hl
  by_cases hx : xs = []
  · subst hx; simp [unified_diff] at hl
  · rw [unified_diff_deletion xs hx] at hl
    have h3 : ("--- " :: "+++ " :: mkHeader xs.length 0 :: xs.map (scat "-")).drop 3
        = xs.map (scat "-") := rfl
    rw [h3] at hl
    obtain ⟨t, _, rfl⟩ := List.mem_map.mp hl
    rfl

theorem unified_diff_add_lines (ys : List String) :
    ∀ l ∈ (unified_diff [] ys).drop 3, l.data.head? = some '+' := by
  intro l hl
  by_cases hy : ys = []
  · subst hy; simp [unified_diff] at hl
  · rw [unified_diff_addition ys hy] at hl
    have h3 : ("--- " :: "+++ " :: mkHeader 0 ys.length :: ys.map (scat "+")).drop 3
        = ys.map (scat "+") := rfl
    rw [h3] at hl
    obtain ⟨t, _, rfl⟩ := List.mem_map.mp hl
    rfl

/-! ## C7: compare -/

/-- C7: `compare` produces a unified diff entry for every path of the union of
the two File Sets' paths, iterated in sorted order, a path absent from one set
counting as empty content — so the diff of a path only in `f1` consists purely
of deletion lines and that of a path only in `f2` purely of addition lines. -/
theorem compare_spec (f1 f2 : FilesDictS) :
    ((compare f1 f2).map Prod.fst).Sorted strLe
    ∧ (∀ p, p ∈ (compare f1 f2).map Prod.fst ↔ p ∈ keysOf f1 ∨ p ∈ keysOf f2)
    ∧ (∀ p d, (p, d) ∈ compare f1 f2 →
        d = unified_diff (pySplitLines ((alookup f1 p).getD ""))
              (pySplitLines ((alookup f2 p).getD ""))
        ∧ (alookup f2 p = none → ∀ l ∈ d.drop 3, l.data.head? = some '-')
        ∧ (alookup f1 p = none → ∀ l ∈ d.drop 3, l.data.head? = some '+')) := by
  have hmap : (compare f1 f2).map Prod.fst = sortedUnionKeys f1 f2 := by
    simp only [compare, List.map_map]
    show List.map id (sortedUnionKeys f1 f2) = sortedUnionKeys f1 f2
    exact List.map_id _
  refine ⟨?_, ?_, ?_⟩
  · rw [hmap]; exact List.sorted_insertionSort strLe _
  · intro p; rw [hmap]; exact mem_sortedUnionKeys f1 f2 p
  · intro p d hmem
    simp only [compare, List.mem_map] at hmem
    obtain ⟨q, _, heq⟩ := hmem
    have h1 : q = p := congrArg Prod.fst heq
    subst h1
    have h2 : unified_diff (pySplitLines ((alookup f1 q).getD ""))
        (pySplitLines ((alookup f2 q).getD "")) = d := congrArg Prod.snd heq
    subst h2
    refine ⟨rfl, ?_, ?_⟩
    · intro hnone l hl
      rw [hnone] at hl
      exact unified_diff_del_lines _ l hl
    · intro hnone l hl
      rw [hnone] at hl
      exact unified_diff_add_lines _ l hl

/-- Witness for C7: a path only in the first File Set yields a pure-deletion
diff, reached through `compare_spec` at a concrete input. -/
theorem compare_spec_witness :
    ("b.txt", unified_diff (pySplitLines "B") (pySplitLines ""))
        ∈ compare [("b.txt", "B")] [("a.txt", "A")]
    ∧ ∀ l ∈ (unified_diff (pySplitLines "B") (pySplitLines "")).drop 3,
        l.data.head? = some '-' := by
  refine ⟨by decide, fun l hl => ?_⟩
  exact ((compare_spec [("b.txt", "B")] [("a.txt", "A")]).2.2 "b.txt"
      (unified_diff (pySplitLines "B") (pySplitLines "")) (by decide)).2.1 (by decide) l hl

/-! ## C4: self-heal termination -/

/-- C4: for a File Set whose entrypoint always exits with a nonzero code, the
self-heal strategy terminates, returning some File Set together with a number
of retries that never exceeds the retry bound (and no exception is modelled:
the function is total). -/
theorem self_heal_bounded {α : Type} (execute : α → ExecResult α)
    (fix : α → ExecResult α → α) (maxRetries : Nat) (files : α)
    (hfail : ∀ f, (execute f).exitCode ≠ 0) :
    ∃ result retries, self_heal execute fix maxRetries files = (result, retries)
      ∧ retries ≤ maxRetries := by
  have key : ∀ fuel f, (selfHealGo execute fix fuel f).2 = fuel := by
    intro fuel
    induction fuel with
    | zero => intro f; rfl
    | succ k ih =>
      intro f
      simp only [selfHealGo]
      rw [if_neg (hfail f)]
      simp [ih]
  exact ⟨(self_heal execute fix maxRetries files).1, (self_heal execute fix maxRetries files).2,
    rfl, le_of_eq (key maxRetries files)⟩

/-- Witness for C4 at a concrete always-failing execution environment. -/
theorem self_heal_bounded_witness :
    (∀ f : FilesDictS, ((fun g => ExecResult.mk g "" "error" 1) f).exitCode ≠ 0)
    ∧ ∃ result retries,
        self_heal (fun g => ExecResult.mk g "" "error" 1) (fun g _ => g) 3 [("run.sh", "x")]
          = (result, retries) ∧ retries ≤ 3 :=
  ⟨fun _ => Nat.one_ne_zero,
   self_heal_bounded (fun g => ExecResult.mk g "" "error" 1) (fun g _ => g) 3 [("run.sh", "x")]
     (fun _ => Nat.one_ne_zero)⟩

/-! ## C5: clarify loop -/

/-- C5: if the model's first clarification response matches the
"nothing to clarify" sentinel case-insensitively, exactly one clarification
round occurs, and generation proceeds with the accumulated conversation
(the prompt followed by that single response). -/
theorem clarified_gen_one_round (prompt r : String) (rs answers : List String)
    (h : pyLower r = no_clarify_sentinel) :
    clarified_gen prompt (r :: rs) answers = (1, [prompt, r]) := by
  show clarifyLoop (9 + 1) (r :: rs) answers [prompt] 0 = (1, [prompt, r])
  simp [clarifyLoop, h]

/-- Witness for C5 at a concrete mixed-case sentinel response. -/
theorem clarified_gen_one_round_witness :
    pyLower "Nothing to Clarify" = no_clarify_sentinel
    ∧ clarified_gen "make an app" ["Nothing to Clarify", "later"] ["y"]
        = (1, ["make an app", "Nothing to Clarify"]) :=
  ⟨by decide, clarified_gen_one_round "make an app" "Nothing to Clarify" ["later"] ["y"] (by decide)⟩

/-! ## C6: strategy configuration -/

/-- C6: the configured generation strategy is exactly one of clarified_gen,
lite_gen, gen_code — clarified_gen iff clarify mode is set (taking precedence
over lite mode), lite_gen iff only lite mode is set, gen_code otherwise — and
the configured execution strategy is self_heal iff self-heal mode is set, else
execute_entrypoint. -/
theorem configure_strategies_closed_set :
    ∀ c l s : Bool,
      (configure_code_gen c l = .clarified_gen ↔ c = true)
      ∧ (configure_code_gen c l = .lite_gen ↔ (c = false ∧ l = true))
      ∧ (configure_code_gen c l = .gen_code ↔ (c = false ∧ l = false))
      ∧ (configure_execution s = .self_heal ↔ s = true)
      ∧ (configure_execution s = .execute_entrypoint ↔ s = false) := by
  decide

/-! ## C8: archive_logs -/

/-- C8: archiving logs twice leaves the store exactly as archiving once, and
no previously stored log entry is lost by repeated calls. -/
theorem archive_logs_idempotent (m : MemoryState) :
    archive_logs (archive_logs m) = archive_logs m
    ∧ ∀ e, e ∈ allEntries m → e ∈ allEntries (archive_logs m) := by
  constructor
  · simp [archive_logs]
  · intro e he
    simp only [allEntries, archive_logs, List.mem_append] at he ⊢
    tauto

/-- Witness for C8 at a concrete memory state. -/
theorem archive_logs_idempotent_witness :
    archive_logs (archive_logs ⟨[("logs/gen", "x")], [("old", "y")]⟩)
        = archive_logs ⟨[("logs/gen", "x")], [("old", "y")]⟩
    ∧ ("logs/gen", "x") ∈ allEntries (archive_logs ⟨[("logs/gen", "x")], [("old", "y")]⟩) :=
  ⟨(archive_logs_idempotent ⟨[("logs/gen", "x")], [("old", "y")]⟩).1,
   (archive_logs_idempotent ⟨[("logs/gen", "x")], [("old", "y")]⟩).2 ("logs/gen", "x") (by decide)⟩

/-! ## C9: flag validation happens first -/

/-- C9: invoking main with improve mode together with clarify or lite mode
prints the error and exits with code 1 before the environment is loaded, the
AI client is constructed, or any generation or improve step runs. -/
theorem main_validates_improve_flags
    (improve_mode clarify_mode lite_mode self_heal_mode : Bool)
    (before improved gen : FilesDictS) (inputs : List String)
    (h1 : improve_mode = true) (h2 : clarify_mode = true ∨ lite_mode = true) :
    main improve_mode clarify_mode lite_mode self_heal_mode before improved gen inputs
        = ⟨[.echoError], some 1, none, none, none⟩
    ∧ Effect.loadEnv
        ∉ (main improve_mode clarify_mode lite_mode self_heal_mode before improved gen inputs).effects
    ∧ Effect.constructAI
        ∉ (main improve_mode clarify_mode lite_mode self_heal_mode before improved gen inputs).effects
    ∧ Effect.genStep
        ∉ (main improve_mode clarify_mode lite_mode self_heal_mode before improved gen inputs).effects
    ∧ Effect.improveStep
        ∉ (main improve_mode clarify_mode lite_mode self_heal_mode before improved gen inputs).effects := by
  have ho : main improve_mode clarify_mode lite_mode self_heal_mode before improved gen inputs
      = ⟨[.echoError], some 1, none, none, none⟩ := by
    subst h1
    rcases h2 with h | h <;> subst h <;> simp [main]
  exact ⟨ho, by rw [ho]; decide, by rw [ho]; decide, by rw [ho]; decide, by rw [ho]; decide⟩

/-- Witness for C9 at a concrete invocation. -/
theorem main_validates_improve_flags_witness :
    main true true false false [("a", "x")] [("a", "y")] [] ["y"]
        = ⟨[.echoError], some 1, none, none, none⟩
    ∧ Effect.loadEnv ∉ (main true true false false [("a", "x")] [("a", "y")] [] ["y"]).effects
    ∧ Effect.constructAI ∉ (main true true false false [("a", "x")] [("a", "y")] [] ["y"]).effects
    ∧ Effect.genStep ∉ (main true true false false [("a", "x")] [("a", "y")] [] ["y"]).effects
    ∧ Effect.improveStep ∉ (main true true false false [("a", "x")] [("a", "y")] [] ["y"]).effects :=
  main_validates_improve_flags true true false false [("a", "x")] [("a", "y")] [] ["y"]
    rfl (Or.inl rfl)

/-! ## C10: get_preprompts_path frame property -/

/-- C10: with custom preprompts enabled, any file already present in the
project's preprompts directory keeps its content and only default files absent
from it are copied in (the resulting directory's lookup is the old directory's
lookup, falling back to the defaults); with the flag off, the default path is
returned and nothing is written. -/
theorem get_preprompts_path_frame (defaults dir : List (String × String))
    (cd : Option (List (String × String))) (n : String) :
    alookup ((get_preprompts_path true defaults (some dir)).2.getD []) n
      = (match alookup dir n with
         | some c => some c
         | none => alookup defaults n)
    ∧ get_preprompts_path false defaults cd = (.defaultPath, cd) := by
  constructor
  · simp only [get_preprompts_path]
    simp [alookup_copy_missing]
  · simp [get_preprompts_path]

/-! ## C1: improve-mode confirmation (code bug) -/

/-- C1 (divergence exhibited): on the valid answer "y", `prompt_yesno` returns
`False` — the walrus assignment binds `answer` to the boolean result of
`not in`, and `False in ["y", "yes"]` is `False` — so `main` reverts to the
base File Set and pushes it even though the user accepted the changes. -/
theorem main_improve_yes_pushes_base :
    prompt_yesno ["y"] = some false
    ∧ (main true false false false [("main.py", "a")] [("main.py", "b")] [] ["y"]).pushed
        = some [("main.py", "a")]
    ∧ ([("main.py", "a")] : FilesDictS) ≠ [("main.py", "b")] := by
  refine ⟨by decide, by decide, by decide⟩

/-! ## C2: zero hunks is a no-op and the CLI reports it -/

/-- C2: a model response that parses to zero valid hunks makes `improve`
return the base File Set unchanged, and `main` in improve mode, on seeing an
unchanged result, prints the report-the-log message and never prompts for
confirmation. -/
theorem improve_zero_hunks_noop (base : FilesDictL) (resp : List String)
    (h : parse_hunks resp = []) (before gen : FilesDictS) (inputs : List String) :
    improve base resp = base
    ∧ Effect.printNoChanges ∈ (main true false false false before before gen inputs).effects
    ∧ Effect.askConfirmation ∉ (main true false false false before before gen inputs).effects := by
  have ho : (main true false false false before before gen inputs).effects
      = [.loadEnv, .constructAI, .loadPrompt, .archiveLogs, .improveStep, .printNoChanges,
         .stageGit, .push] := by
    simp [main]
  exact ⟨by simp [improve, h], by rw [ho]; decide, by rw [ho]; decide⟩

/-! ## C3: round trip — decimal headers -/

theorem digit_facts : ∀ d < 10, isDigitC (digitChar d) = true ∧ charVal (digitChar d) = d := by
  decide

theorem natCharsCore_digits : ∀ fuel n, ∀ c ∈ natCharsCore fuel n, isDigitC c = true := by
  intro fuel
  induction fuel with
  | zero => intro n c hc; simp [natCharsCore] at hc
  | succ k ih =>
    intro n c hc
    by_cases hn : n = 0
    · simp [natCharsCore, hn] at hc
    · rw [natCharsCore, if_neg hn] at hc
      rcases List.mem_append.mp hc with h | h
      · exact ih _ c h
      · simp only [List.mem_singleton] at h
        subst h
        exact (digit_facts (n % 10) (Nat.mod_lt n (by norm_num))).1

theorem natChars_digits (n : Nat) : ∀ c ∈ natChars n, isDigitC c = true := by
  intro c hc
  by_cases hn : n = 0
  · rw [natChars, if_pos hn] at hc
    simp only [List.mem_singleton] at hc
    subst hc; decide
  · rw [natChars, if_neg hn] at hc
    exact natCharsCore_digits n n c hc

theorem natChars_ne_nil (n : Nat) : natChars n ≠ [] := by
  by_cases hn : n = 0
  · simp [natChars, hn]
  · rw [natChars, if_neg hn]
    cases n with
    | zero => exact absurd rfl hn
    | succ k =>
      rw [natCharsCore, if_neg hn]
      simp

theorem charsVal_append_digit (cs : List Char) (c : Char) :
    charsVal (cs ++ [c]) = 10 * charsVal cs + charVal c := by
  simp [charsVal, List.foldl_append]

theorem charsVal_natCharsCore : ∀ fuel n, n ≤ fuel → charsVal (natCharsCore fuel n) = n := by
  intro fuel
  induction fuel with
  | zero =>
    intro n h
    have : n = 0 := Nat.le_zero.mp h
    subst this; rfl
  | succ k ih =>
    intro n h
    by_cases hn : n = 0
    · subst hn; rfl
    · rw [natCharsCore, if_neg hn, charsVal_append_digit]
      have hdiv : n / 10 ≤ k := by
        have h1 : n / 10 < n := Nat.div_lt_self (Nat.pos_of_ne_zero hn) (by norm_num)
        omega
      rw [ih (n / 10) hdiv, (digit_facts (n % 10) (Nat.mod_lt n (by norm_num))).2]
      exact Nat.div_add_mod n 10

theorem charsVal_natChars (n : Nat) : charsVal (natChars n) = n := by
  by_cases hn : n = 0
  · subst hn; rfl
  · rw [natChars, if_neg hn]
    exact charsVal_natCharsCore n n (le_refl n)

theorem dropPreChars_append (pre : List Char) :
    ∀ rest, dropPreChars pre (pre ++ rest) = some rest := by
  induction pre with
  | nil => intro rest; rfl
  | cons c cs ih => intro rest; simp [dropPreChars, ih]

theorem dropPre_scat (pre s : String) : dropPre pre (scat pre s) = some s := by
  show (dropPreChars pre.data (pre.data ++ s.data)).map (fun cs => String.mk cs) = some s
  rw [dropPreChars_append]
  rfl

theorem mapOpt_scat (pre : String) (ls : List String) :
    mapOpt (dropPre pre) (ls.map (scat pre)) = some ls := by
  induction ls with
  | nil => rfl
  | cons a l ih => simp [mapOpt, dropPre_scat, ih]

theorem takeWhile_append_stop {α : Type} (p : α → Bool) (x : α) (h2 : p x = false) :
    ∀ (l1 l2 : List α), (∀ a ∈ l1, p a = true) →
      (l1 ++ x :: l2).takeWhile p = l1 ∧ (l1 ++ x :: l2).dropWhile p = x :: l2 := by
  intro l1
  induction l1 with
  | nil =>
    intro l2 _
    constructor
    · simp [List.takeWhile_cons, h2]
    · simp [List.dropWhile_cons, h2]
  | cons a l1' ih =>
    intro l2 hall
    have ha : p a = true := hall a (List.mem_cons_self a l1')
    have hrec := ih l2 (fun b hb => hall b (List.mem_cons_of_mem a hb))
    constructor
    · simp [List.takeWhile_cons, ha, hrec.1]
    · simp [List.dropWhile_cons, ha, hrec.2]

theorem parseHeader_mkHeader (n m : Nat) : parseHeader (mkHeader n m) = some (n, m) := by
  have hdata : (mkHeader n m).data
      = ['@', '@', ' ', '-', '1', ','] ++
          (natChars n ++ ' ' :: '+' :: '1' :: ',' :: (natChars m ++ [' ', '@', '@'])) := rfl
  rw [parseHeader, hdata, dropPreChars_append]
  obtain ⟨ht1, hd1⟩ := takeWhile_append_stop isDigitC ' ' (by decide) (natChars n)
    ('+' :: '1' :: ',' :: (natChars m ++ [' ', '@', '@'])) (natChars_digits n)
  simp only [Option.some_bind, ht1, hd1]
  rw [if_neg (natChars_ne_nil n)]
  have hdrop2 : dropPreChars [' ', '+', '1', ',']
      (' ' :: '+' :: '1' :: ',' :: (natChars m ++ [' ', '@', '@']))
      = some (natChars m ++ [' ', '@', '@']) := dropPreChars_append [' ', '+', '1', ','] _
  rw [hdrop2]
  obtain ⟨ht2, hd2⟩ := takeWhile_append_stop isDigitC ' ' (by decide) (natChars m)
    ['@', '@'] (natChars_digits m)
  simp only [Option.some_bind, ht2, hd2]
  rw [if_neg (natChars_ne_nil m)]
  simp [charsVal_natChars]

/-! ## C3: round trip — parsing a serialized diff -/

theorem length_serializeHunk (h : Hunk) :
    (serializeHunk h).length = 3 + (h.minus.length + h.plus.length) := by
  simp [serializeHunk]
  omega

theorem parseHunksGo_step (f : Nat) (h : Hunk) (tail : List String) :
    parseHunksGo (f + 1) (serializeHunk h ++ tail) = h :: parseHunksGo f tail := by
  show parseHunksGo (f + 1)
      (scat "--- " h.path :: scat "+++ " h.path :: mkHeader h.minus.length h.plus.length ::
        ((h.minus.map (scat "-") ++ h.plus.map (scat "+")) ++ tail)) = h :: parseHunksGo f tail
  rw [List.append_assoc]
  have hM : (h.minus.map (scat "-")).length = h.minus.length := List.length_map _ _
  have hP : (h.plus.map (scat "+")).length = h.plus.length := List.length_map _ _
  simp only [parseHunksGo, dropPre_scat, parseHeader_mkHeader, Option.isSome_some, if_true,
    List.take_left' hM, List.drop_left' hM, List.take_left' hP, List.drop_left' hP,
    mapOpt_scat]
  simp

theorem parse_flatMap (hs : List Hunk) :
    ∀ fuel, (hs.flatMap serializeHunk).length ≤ fuel →
      parseHunksGo fuel (hs.flatMap serializeHunk) = hs := by
  induction hs with
  | nil => intro fuel _; cases fuel <;> rfl
  | cons h t ih =>
    intro fuel hlen
    have hcons : (h :: t).flatMap serializeHunk = serializeHunk h ++ t.flatMap serializeHunk :=
      rfl
    rw [hcons] at hlen ⊢
    rw [List.length_append, length_serializeHunk] at hlen
    obtain ⟨f, rfl⟩ : ∃ f, fuel = f + 1 := ⟨fuel - 1, by omega⟩
    rw [parseHunksGo_step]
    rw [ih f (by omega)]

theorem parse_hunks_flatMap (hs : List Hunk) : parse_hunks (hs.flatMap serializeHunk) = hs :=
  parse_flatMap hs _ (le_refl _)

/-! ## C3: round trip — applying the parsed hunks -/

theorem setContent_cons (e : String × Content) (l : FilesDictL) (p : String) (c : Content) :
    setContent (e :: l) p c = (if e.1 = p then (p, c) else e) :: setContent l p c := rfl

theorem alookup_setContent_self (fs : FilesDictL) (p : String) (c : Content) :
    alookup (setContent fs p c) p = (alookup fs p).map (fun _ => c) := by
  induction fs with
  | nil => rfl
  | cons e l ih =>
    rw [setContent_cons]
    by_cases he : e.1 = p
    · simp [alookup, he]
    · simp only [if_neg he, alookup, if_neg he, ih]

theorem alookup_setContent_ne (fs : FilesDictL) (p q : String) (c : Content) (hq : q ≠ p) :
    alookup (setContent fs p c) q = alookup fs q := by
  induction fs with
  | nil => rfl
  | cons e l ih =>
    rw [setContent_cons]
    by_cases he : e.1 = p
    · have h1 : ¬ (p = q) := fun hh => hq hh.symm
      have h2 : ¬ (e.1 = q) := fun hh => hq (he ▸ hh).symm
      simp only [if_pos he, alookup, if_neg h1, if_neg h2, ih]
    · simp only [if_neg he, alookup, ih]

theorem applyHunk_files_ne (st : MergeState) (h : Hunk) (q : String) (hq : q ≠ h.path) :
    alookup (applyHunk st h).files q = alookup st.files q := by
  have hne : ¬ (h.path = q) := fun hh => hq hh.symm
  rw [applyHunk]
  cases hc : alookup st.files h.path with
  | some c =>
    by_cases hm : h.minus.isEmpty
    · simp [hc, hm, alookup_setContent_ne _ _ _ _ hq]
    · cases hf : findBlockAux h.minus (c.drop ((alookup st.cursors h.path).getD 0))
        ((alookup st.cursors h.path).getD 0) with
      | some i => simp [hc, hm, hf, alookup_setContent_ne _ _ _ _ hq]
      | none => simp [hc, hm, hf]
  | none =>
    by_cases hm : h.minus.isEmpty
    · simp only [hc, hm, if_true]
      rw [alookup_append]
      cases hfq : alookup st.files q with
      | some c => rfl
      | none => simp [alookup, hne]
    · simp [hc, hm]

theorem applyHunk_cursors_ne (st : MergeState) (h : Hunk) (q : String) (hq : q ≠ h.path) :
    alookup (applyHunk st h).cursors q = alookup st.cursors q := by
  rw [applyHunk]
  have hne : ¬ (h.path = q) := fun hh => hq hh.symm
  cases hc : alookup st.files h.path with
  | some c =>
    by_cases hm : h.minus.isEmpty
    · simp [hc, hm, alookup, hne]
    · cases hf : findBlockAux h.minus (c.drop ((alookup st.cursors h.path).getD 0))
        ((alookup st.cursors h.path).getD 0) with
      | some i => simp [hc, hm, hf, alookup, hne]
      | none => simp [hc, hm, hf]
  | none =>
    by_cases hm : h.minus.isEmpty
    · simp [hc, hm, alookup, hne]
    · simp [hc, hm]

theorem applyHunk_files_self (st : MergeState) (h : Hunk) :
    alookup (applyHunk st h).files h.path
      = applyContent (alookup st.files h.path) ((alookup st.cursors h.path).getD 0) h := by
  rw [applyHunk]
  cases hc : alookup st.files h.path with
  | some c =>
    by_cases hm : h.minus.isEmpty
    · simp [applyContent, hc, hm, alookup_setContent_self]
    · cases hf : findBlockAux h.minus (c.drop ((alookup st.cursors h.path).getD 0))
        ((alookup st.cursors h.path).getD 0) with
      | some i => simp [applyContent, hc, hm, hf, alookup_setContent_self]
      | none => simp [applyContent, hc, hm, hf]
  | none =>
    by_cases hm : h.minus.isEmpty
    · simp only [applyContent, hc, hm, if_true]
      rw [alookup_append, hc]
      simp [alookup]
    · simp [applyContent, hc, hm]

theorem foldl_applyHunk_lookup (hs : List Hunk) :
    ∀ (st : MergeState), (hs.map Hunk.path).Nodup → ∀ q,
      alookup (hs.foldl applyHunk st).files q
        = match hunkFor hs q with
          | some k => applyContent (alookup st.files q) ((alookup st.cursors q).getD 0) k
          | none => alookup st.files q := by
  induction hs with
  | nil => intro st _ q; rfl
  | cons k t ih =>
    intro st hnd q
    have hnd' : (t.map Hunk.path).Nodup := (List.nodup_cons.mp hnd).2
    have hknotin : k.path ∉ t.map Hunk.path := (List.nodup_cons.mp hnd).1
    rw [List.foldl_cons]
    by_cases hq : k.path = q
    · have hfind : hunkFor (k :: t) q = some k := by
        rw [hunkFor]
        exact List.find?_cons_of_pos _ (by simp [hq])
      have hnone : hunkFor t q = none := by
        rw [hunkFor, List.find?_eq_none]
        intro k' hk' hbeq
        have hpeq : k'.path = q := by simpa using hbeq
        exact hknotin (hq ▸ hpeq ▸ List.mem_map_of_mem Hunk.path hk')
      rw [ih (applyHunk st k) hnd' q, hnone, hfind]
      subst hq
      exact applyHunk_files_self st k
    · have hfind : hunkFor (k :: t) q = hunkFor t q := by
        rw [hunkFor, hunkFor]
        exact List.find?_cons_of_neg _ (by simp [hq])
      rw [ih (applyHunk st k) hnd' q, hfind,
        applyHunk_files_ne st k q (fun hh => hq hh.symm),
        applyHunk_cursors_ne st k q (fun hh => hq hh.symm)]

theorem mkHunk_path (A B : FilesDictL) (p : String) (k : Hunk) (h : mkHunk A B p = some k) :
    k.path = p := by
  rw [mkHunk] at h
  cases ha : alookup A p with
  | none =>
    cases hb : alookup B p with
    | none => rw [ha, hb] at h; simp at h
    | some n =>
      rw [ha, hb] at h
      simp only [Option.some.injEq] at h
      subst h; rfl
  | some o =>
    cases hb : alookup B p with
    | none =>
      rw [ha, hb] at h
      simp only [Option.some.injEq] at h
      subst h; rfl
    | some n =>
      rw [ha, hb] at h
      by_cases ho : o = n
      · simp [ho] at h
      · simp only [if_neg ho, Option.some.injEq] at h
        subst h; rfl

theorem mem_paths_filterMap (A B : FilesDictL) (us : List String) (p' : String)
    (h : p' ∈ (us.filterMap (mkHunk A B)).map Hunk.path) : p' ∈ us := by
  induction us with
  | nil => simp at h
  | cons u us' ih =>
    rw [List.filterMap_cons] at h
    cases hk : mkHunk A B u with
    | none =>
      rw [hk] at h
      exact List.mem_cons_of_mem u (ih h)
    | some k =>
      rw [hk] at h
      simp only [List.map_cons, List.mem_cons] at h
      rcases h with h | h
      · have hp := mkHunk_path A B u k hk
        rw [h, hp]
        exact List.mem_cons_self u us'
      · exact List.mem_cons_of_mem u (ih h)

theorem nodup_paths_filterMap (A B : FilesDictL) :
    ∀ us : List String, us.Nodup → ((us.filterMap (mkHunk A B)).map Hunk.path).Nodup := by
  intro us
  induction us with
  | nil => intro _; simp
  | cons u us' ih =>
    intro hU
    obtain ⟨hu, hnd⟩ := List.nodup_cons.mp hU
    rw [List.filterMap_cons]
    cases hk : mkHunk A B u with
    | none => exact ih hnd
    | some k =>
      simp only [List.map_cons, List.nodup_cons]
      refine ⟨?_, ih hnd⟩
      intro hmem
      have hp := mkHunk_path A B u k hk
      exact hu (mem_paths_filterMap A B us' _ (hp ▸ hmem))

theorem hunkFor_filterMap_not_mem (A B : FilesDictL) (us : List String) (q : String)
    (hq : q ∉ us) : hunkFor (us.filterMap (mkHunk A B)) q = none := by
  rw [hunkFor, List.find?_eq_none]
  intro k' hk' hbeq
  have hpeq : k'.path = q := by simpa using hbeq
  exact hq (mem_paths_filterMap A B us q (hpeq ▸ List.mem_map_of_mem Hunk.path hk'))

theorem hunkFor_filterMap_mem (A B : FilesDictL) :
    ∀ us : List String, ∀ q : String, us.Nodup → q ∈ us →
      hunkFor (us.filterMap (mkHunk A B)) q = mkHunk A B q := by
  intro us
  induction us with
  | nil => intro q _ hq; simp at hq
  | cons u us' ih =>
    intro q hnd hq
    obtain ⟨hu, hnd'⟩ := List.nodup_cons.mp hnd
    rw [List.filterMap_cons]
    rcases List.mem_cons.mp hq with rfl | hq'
    · cases hk : mkHunk A B q with
      | none =>
        show hunkFor (us'.filterMap (mkHunk A B)) q = none
        exact hunkFor_filterMap_not_mem A B us' q hu
      | some k =>
        show hunkFor (k :: us'.filterMap (mkHunk A B)) q = some k
        rw [hunkFor]
        have step : List.find? (fun k' => k'.path == q) (k :: us'.filterMap (mkHunk A B))
            = some k :=
          List.find?_cons_of_pos _ (by simp [mkHunk_path A B q k hk])
        exact step
    · have hqu : q ≠ u := fun hh => hu (hh ▸ hq')
      cases hk : mkHunk A B u with
      | none =>
        show hunkFor (us'.filterMap (mkHunk A B)) q = mkHunk A B q
        exact ih q hnd' hq'
      | some k =>
        show hunkFor (k :: us'.filterMap (mkHunk A B)) q = mkHunk A B q
        rw [hunkFor]
        have step : List.find? (fun k' => k'.path == q) (k :: us'.filterMap (mkHunk A B))
            = List.find? (fun k' => k'.path == q) (us'.filterMap (mkHunk A B)) :=
          List.find?_cons_of_neg _ (by simp [mkHunk_path A B u k hk, Ne.symm hqu])
        rw [step]
        exact ih q hnd' hq'

theorem nodup_unionKeysL (A B : FilesDictL) (hA : (keysOf A).Nodup) (hB : (keysOf B).Nodup) :
    (unionKeysL A B).Nodup := by
  rw [unionKeysL]
  refine List.Nodup.append hA (hB.filter _) ?_
  intro p hpA hpB
  rw [List.mem_filter] at hpB
  have hnot : p ∉ keysOf A := by simpa using hpB.2
  exact hnot hpA

theorem mem_unionKeysL (A B : FilesDictL) (q : String) :
    q ∈ unionKeysL A B ↔ q ∈ keysOf A ∨ q ∈ keysOf B := by
  rw [unionKeysL, List.mem_append, List.mem_filter]
  constructor
  · rintro (h | ⟨h, _⟩)
    · exact Or.inl h
    · exact Or.inr h
  · rintro (h | h)
    · exact Or.inl h
    · by_cases hA : q ∈ keysOf A
      · exact Or.inl hA
      · exact Or.inr ⟨h, by simpa using hA⟩

theorem findBlockAux_self (c : List String) : findBlockAux c c 0 = some 0 := by
  cases c with
  | nil => rfl
  | cons a t => simp [findBlockAux, List.isPrefixOf_iff_prefix]

/-! ## C3: the round trip, corrected -/

/-- C3 as stated is false: the hunk grammar has no file-deletion form, so a
path present in `A` but absent from `B` survives the round trip as a file with
empty content rather than disappearing.  Concretely for `A = {a.txt: [x]}` and
`B = {}`, merging the parsed diff into `A` leaves `a.txt` mapped to no lines,
while `B` has no such path. -/
theorem merge_parse_diff_not_B :
    ¬ fdEq (merge [("a.txt", ["x"])] (parse_hunks (diffText [("a.txt", ["x"])] []))) [] := by
  intro hfd
  exact absurd (hfd "a.txt") (by decide)

/-- C3 (amended): for File Sets `A` and `B` with unique paths such that every
path of `A` also occurs in `B`, applying the parsed hunks of the serialized
diff of `A` and `B` to `A` yields a File Set equal to `B` as a mapping —
`merge(A, parse_hunks(diff(A, B))) == B` — since the diff emits exactly the
hunk grammar the parser consumes. -/
theorem merge_parse_diff_roundtrip (A B : FilesDictL)
    (hA : (keysOf A).Nodup) (hB : (keysOf B).Nodup)
    (hsub : (keysOf A).all (fun p => decide (p ∈ keysOf B)) = true) :
    fdEq (merge A (parse_hunks (diffText A B))) B := by
  have hsub' : ∀ p ∈ keysOf A, p ∈ keysOf B := by
    intro p hp
    simpa using List.all_eq_true.mp hsub p hp
  have hparse : parse_hunks (diffText A B) = diffFiles A B :=
    parse_hunks_flatMap (diffFiles A B)
  rw [hparse]
  intro q
  have hnodupU := nodup_unionKeysL A B hA hB
  rw [merge, foldl_applyHunk_lookup (diffFiles A B) ⟨A, []⟩
    (nodup_paths_filterMap A B (unionKeysL A B) hnodupU) q]
  by_cases hq : q ∈ unionKeysL A B
  · rw [show hunkFor (diffFiles A B) q = mkHunk A B q from
      hunkFor_filterMap_mem A B (unionKeysL A B) q hnodupU hq]
    rcases ha : alookup A q with _ | o <;> rcases hb : alookup B q with _ | n
    · simp [mkHunk, ha, hb]
    · simp [mkHunk, ha, hb, applyContent, alookup]
    · exfalso
      have hinA : q ∈ keysOf A := (alookup_isSome_iff A q).mp (by simp [ha])
      have hinB := hsub' q hinA
      rw [← alookup_isSome_iff] at hinB
      simp [hb] at hinB
    · by_cases ho : o = n
      · simp [mkHunk, ha, hb, ho]
      · simp only [mkHunk, ha, hb, if_neg ho]
        by_cases hoe : o = []
        · subst hoe
          simp [applyContent, alookup, ha]
        · have hne : o.isEmpty = false := by
            cases o with
            | nil => exact absurd rfl hoe
            | cons x t => rfl
          simp [applyContent, alookup, ha, hne, findBlockAux_self, List.drop_length]
  · rw [show hunkFor (diffFiles A B) q = none from
      hunkFor_filterMap_not_mem A B (unionKeysL A B) q hq]
    have hqA : q ∉ keysOf A := fun hh => hq ((mem_unionKeysL A B q).mpr (Or.inl hh))
    have hqB : q ∉ keysOf B := fun hh => hq ((mem_unionKeysL A B q).mpr (Or.inr hh))
    show alookup A q = alookup B q
    rw [(alookup_eq_none_iff A q).mpr hqA, (alookup_eq_none_iff B q).mpr hqB]

/-- Witness for the amended C3 at concrete File Sets, one path changed, one
created empty. -/
theorem merge_parse_diff_roundtrip_witness :
    fdEq (merge [("a.txt", ["x"])]
        (parse_hunks (diffText [("a.txt", ["x"])] [("a.txt", ["y"]), ("b.txt", [])])))
      [("a.txt", ["y"]), ("b.txt", [])] :=
  merge_parse_diff_roundtrip [("a.txt", ["x"])] [("a.txt", ["y"]), ("b.txt", [])]
    (by decide) (by decide) (by decide)

/-- Witness for C2 at a concrete hunk-free model response. -/
theorem improve_zero_hunks_noop_witness :
    improve [("a.py", ["x"])] ["I cannot help with that."] = [("a.py", ["x"])]
    ∧ Effect.printNoChanges
        ∈ (main true false false false [("f", "1")] [("f", "1")] [] ["y"]).effects
    ∧ Effect.askConfirmation
        ∉ (main true false false false [("f", "1")] [("f", "1")] [] ["y"]).effects :=
  improve_zero_hunks_noop [("a.py", ["x"])] ["I cannot help with that."] (by decide)
    [("f", "1")] [] ["y"]

end GptEng
